import Mathlib

set_option linter.unusedVariables false

/-! Shallow embedding of `src/code-analyzer/analyzer.py` (class `CodeAnalyzer`).

Modelling conventions:

* Python strings are modelled as `String` at the interfaces and as `List Char`
  inside the scanners; `String.toList` mediates between the two.
* The regular expressions of the source are hand-translated into explicit,
  executable character-list matchers that reproduce the behaviour of Python's
  `re.match` / `re.search` (anchored prefix match resp. leftmost search) on the
  concrete patterns of the source, including the relevant backtracking order
  (greedy and lazy quantifiers, ordered alternation).
* Python's `\s` (and `str.strip` / `str.split` whitespace) is modelled by
  `isPySpace`; `\w` is modelled as ASCII alphanumeric or underscore
  (`isWordChar`); `str.lower` is modelled by the ASCII `Char.toLower`.  The
  Unicode refinements of these classes are irrelevant to the extension table
  and to every concrete input used below.
* Python integers are modelled by `Nat`/`Int`; the single `float(...)`
  conversion of the source is exact on the integers it receives and the value
  is kept as `Int`.
-/

/-- Model of Python whitespace (`\s`, `str.strip`): space, tab, newline,
carriage return, vertical tab, form feed. -/
def isPySpace (c : Char) : Bool :=
  c = ' ' || c = '\t' || c = '\n' || c = '\r' || c = '\x0b' || c = '\x0c'

/-- Model of `\w`: ASCII letters, digits, underscore. -/
def isWordChar (c : Char) : Bool :=
  c.isAlphanum || c = '_'

/-- Python `str.strip()`: drop whitespace from both ends. -/
def stripChars (s : List Char) : List Char :=
  ((s.dropWhile isPySpace).reverse.dropWhile isPySpace).reverse

/-- Python `code.split('\n')` on the character list: always returns at least
one (possibly empty) line. -/
def splitNl : List Char → List (List Char)
  | [] => [[]]
  | c :: cs =>
    match splitNl cs with
    | [] => [[c]]
    | h :: t => if c = '\n' then [] :: h :: t else (c :: h) :: t

/-- Decidable check that `pat` is a prefix of `s`. -/
def isPrefixOfChars : List Char → List Char → Bool
  | [], _ => true
  | _ :: _, [] => false
  | a :: as, b :: bs => a = b && isPrefixOfChars as bs

/-- Python `needle in haystack` (contiguous substring containment). -/
def containsSeq (needle : List Char) : List Char → Bool
  | [] => isPrefixOfChars needle []
  | c :: cs => isPrefixOfChars needle (c :: cs) || containsSeq needle cs

/-- Enumerate a list with indices starting at `n` (Python `enumerate`). -/
def enumerateFrom (n : Nat) : List α → List (Nat × α)
  | [] => []
  | a :: as => (n, a) :: enumerateFrom (n + 1) as

/-! Matcher building blocks.  Each models one regex atom on the remainder of
the subject; `none` is a failed match. -/

/-- Literal string atom: consume `pat` or fail. -/
def expectStr (pat s : List Char) : Option (List Char) :=
  if isPrefixOfChars pat s then some (s.drop pat.length) else none

/-- Single-character atom. -/
def expectChar (c : Char) (s : List Char) : Option (List Char) :=
  match s with
  | [] => none
  | b :: bs => if b = c then some bs else none

/-- Greedy `\s*`. -/
def chompWs (s : List Char) : List Char := s.dropWhile isPySpace

/-- Greedy `\s+` (at least one whitespace character). -/
def chompWs1 (s : List Char) : Option (List Char) :=
  match s with
  | [] => none
  | c :: cs => if isPySpace c then some ((c :: cs).dropWhile isPySpace) else none

/-- Greedy `\w+`: the maximal nonempty word-character run and the remainder. -/
def wordRun1 (s : List Char) : Option (List Char × List Char) :=
  let r := s.takeWhile isWordChar
  if r.isEmpty then none else some (r, s.dropWhile isWordChar)

/-- Greedy `\S+`: the maximal nonempty non-whitespace run and the remainder. -/
def nonWsRun1 (s : List Char) : Option (List Char × List Char) :=
  let r := s.takeWhile (fun c => !(isPySpace c))
  if r.isEmpty then none else some (r, s.dropWhile (fun c => !(isPySpace c)))

/-- Lazy scan up to (and through) the first occurrence of the literal `stop`;
returns the text before `stop` and the remainder after it.  Models
`(.*?)stop` and `[^x]*x` shapes on newline-free subjects. -/
def splitAtSub (stop : List Char) : List Char → Option (List Char × List Char)
  | [] => if isPrefixOfChars stop [] then some ([], []) else none
  | c :: cs =>
    if isPrefixOfChars stop (c :: cs) then some ([], (c :: cs).drop stop.length)
    else (splitAtSub stop cs).map (fun pr => (c :: pr.1, pr.2))

/-- Model of `re.search`: try the anchored matcher at every start position,
leftmost first (the final empty suffix included). -/
def reSearch (m : List Char → Option α) : List Char → Option α
  | [] => m []
  | c :: cs =>
    match m (c :: cs) with
    | some r => some r
    | none => reSearch m cs

/-! Data model (dictionary shapes of the source, as records). -/

structure LineStats where
  total_lines : Nat
  non_empty_lines : Nat
  comment_lines : Nat
  characters : Nat
  functions_count : Nat
  classes_count : Nat
deriving DecidableEq, Repr

structure FunctionDecl where
  name : String
  parameters : String
  line_number : Nat
  docstring : String
  type : String
deriving DecidableEq, Repr

structure ClassDecl where
  name : String
  line_number : Nat
  methods : List String
  docstring : String
deriving DecidableEq, Repr

structure ImportDecl where
  module : String
  line_number : Nat
  /-- Source dictionary key `'alias'` (a reserved word here). -/
  import_alias : String
deriving DecidableEq, Repr

structure StructureSummary where
  functions : List FunctionDecl
  classes : List ClassDecl
  imports : List ImportDecl
deriving DecidableEq, Repr

structure ComplexityMetrics where
  cyclomatic_complexity : Nat
  nesting_depth : Int
  maintainability_index : Int
deriving DecidableEq, Repr

structure AnalysisResult where
  filename : String
  language : String
  stats : LineStats
  structure_summary : StructureSummary
  complexity : ComplexityMetrics
  success : Bool
  error_message : String
deriving DecidableEq, Repr

/-! Language detection (`CodeAnalyzer.detect_language`, analyzer.py:10-22). -/

/-- The fixed extension table `ext_map` of the source. -/
def ext_map : List (String × String) :=
  [(".py", "python"), (".js", "javascript"), (".jsx", "javascript"),
   (".ts", "typescript"), (".tsx", "typescript"), (".java", "java"),
   (".go", "go")]

/-- Extension part of CPython's `os.path.splitext` (posixpath): the suffix of
`p` from its last `'.'` onward, provided that dot lies after the last `'/'`
and at least one non-dot character stands between them (so dotfiles have no
extension); otherwise empty.  CPython scans with `rfind`; here the same
positions are located from the right end of the string via `reverse`. -/
def splitext_ext (p : List Char) : List Char :=
  let r := p.reverse
  let base := r.takeWhile (fun c => c ≠ '/')
  if '.' ∈ base then
    let beforeDotRev := (base.dropWhile (fun c => c ≠ '.')).drop 1
    if beforeDotRev.any (fun c => c ≠ '.') then
      '.' :: (r.takeWhile (fun c => c ≠ '.')).reverse
    else []
  else []

/-- `CodeAnalyzer.detect_language`: lowercase, split off the extension, look
it up in `ext_map` with default `"unknown"`. -/
def detect_language (filename : String) : String :=
  let ext := String.mk (splitext_ext (filename.toList.map Char.toLower))
  (ext_map.lookup ext).getD "unknown"

/-! Line statistics (`CodeAnalyzer._get_basic_stats`, analyzer.py:64-88). -/

/-- Comment-line test for the python-style pattern `^\s*#`. -/
def pyCommentLine (l : List Char) : Bool :=
  isPrefixOfChars ['#'] (chompWs l)

/-- Comment-line test for the C-style pattern `^\s*(//)|(^\s*/\*)`. -/
def jsCommentLine (l : List Char) : Bool :=
  isPrefixOfChars ['/', '/'] (chompWs l) || isPrefixOfChars ['/', '*'] (chompWs l)

/-- The `comment_patterns` dictionary together with its `.get(language,
python-pattern)` default: the four C-style languages get the C-style pattern,
everything else (python included) the python pattern. -/
def commentLine (language : String) (l : List Char) : Bool :=
  if language = "javascript" ∨ language = "typescript" ∨ language = "java" ∨
      language = "go" then jsCommentLine l
  else pyCommentLine l

def get_basic_stats (code : String) (language : String) : LineStats :=
  let lines := splitNl code.toList
  { total_lines := lines.length
    non_empty_lines := (lines.filter (fun l => !(stripChars l).isEmpty)).length
    comment_lines := (lines.filter (fun l => commentLine language l)).length
    characters := code.toList.length
    functions_count := 0
    classes_count := 0 }

/-- `CodeAnalyzer._empty_stats` (analyzer.py:346-355). -/
def empty_stats : LineStats :=
  { total_lines := 0, non_empty_lines := 0, comment_lines := 0,
    characters := 0, functions_count := 0, classes_count := 0 }

/-! Complexity metrics (`CodeAnalyzer._calculate_complexity` and
`_calculate_nesting_depth`, analyzer.py:294-344). -/

/-- The `complexity_keywords` dictionary with its `.get(language, ['if',
'for', 'while'])` default. -/
def complexity_keywords (language : String) : List (List Char) :=
  if language = "python" then
    ["if".toList, "elif".toList, "for".toList, "while".toList, "try".toList,
     "except".toList, "with".toList]
  else if language = "javascript" ∨ language = "typescript" ∨ language = "java" then
    ["if".toList, "for".toList, "while".toList, "try".toList, "catch".toList,
     "switch".toList]
  else if language = "go" then
    ["if".toList, "for".toList, "switch".toList, "select".toList]
  else
    ["if".toList, "for".toList, "while".toList]

/-- Line test of analyzer.py:312: `f' {keyword} ' in f' {line} '` or
`line.strip().startswith(keyword + ' ')`. -/
def keywordHit (line kw : List Char) : Bool :=
  containsSeq (' ' :: (kw ++ [' '])) (' ' :: (line ++ [' '])) ||
  isPrefixOfChars (kw ++ [' ']) (stripChars line)

/-- Number of occurrences of `c` in `l` (Python `str.count` for one char). -/
def countChar (c : Char) (l : List Char) : Nat :=
  (l.filter (fun b => b = c)).length

/-- One line of the brace-balance loop of `_calculate_nesting_depth`:
`current_depth += line.count('\x7b') - line.count('\x7d')` followed by
`max_depth = max(max_depth, current_depth)`, on the state (current, max). -/
def braceStep (s : Int × Int) (l : List Char) : Int × Int :=
  let c := s.1 + (countChar '\x7b' l : Int) - (countChar '\x7d' l : Int)
  (c, max s.2 c)

/-- `CodeAnalyzer._calculate_nesting_depth`: indentation-based for python
(leading-whitespace count integer-divided by 4, maximum over non-blank
lines), running brace balance with running maximum otherwise. -/
def calculate_nesting_depth (code : String) (language : String) : Int :=
  let lines := splitNl code.toList
  if language = "python" then
    ((lines.foldl
        (fun md l =>
          if !(stripChars l).isEmpty then
            max md ((l.takeWhile isPySpace).length / 4)
          else md) 0 : Nat) : Int)
  else
    (lines.foldl braceStep ((0 : Int), (0 : Int))).2

/-- The raw (uncapped) cyclomatic count of analyzer.py:308-313: start at 1,
add 1 per keyword of the set per line that passes `keywordHit`. -/
def cyclomaticRaw (lines : List (List Char)) (keywords : List (List Char)) : Nat :=
  lines.foldl
    (fun acc l => keywords.foldl (fun a kw => if keywordHit l kw then a + 1 else a) acc)
    1

def calculate_complexity (code : String) (language : String) : ComplexityMetrics :=
  let lines := splitNl code.toList
  let keywords := complexity_keywords language
  let cyclomatic := cyclomaticRaw lines keywords
  let max_depth := calculate_nesting_depth code language
  let maintainability : Int := max 0 (100 - (cyclomatic : Int) * 2 - max_depth * 5)
  { cyclomatic_complexity := min cyclomatic 50
    nesting_depth := max_depth
    maintainability_index := maintainability }

/-! Python structure extraction (`_extract_python_structure`,
analyzer.py:103-148). -/

/-- Matcher for `re.match(r'def\s+(\w+)\s*\((.*?)\):', stripped)`; returns
(name, parameter text). -/
def matchPyDef (s : List Char) : Option (List Char × List Char) := do
  let s1 ← expectStr "def".toList s
  let s2 ← chompWs1 s1
  let (nm, s3) ← wordRun1 s2
  let s4 := chompWs s3
  let s5 ← expectChar '(' s4
  let (ps, _) ← splitAtSub [')', ':'] s5
  pure (nm, ps)

/-- Matcher for `re.match(r'class\s+(\w+)(?:\([^)]*\))?:', stripped)`.  The
optional parenthesised base list is tried first, then (on failure) skipped,
mirroring the backtracking of the optional group. -/
def matchPyClass (s : List Char) : Option (List Char) := do
  let s1 ← expectStr "class".toList s
  let s2 ← chompWs1 s1
  let (nm, s3) ← wordRun1 s2
  let withParens : Option (List Char) := do
    let s4 ← expectChar '(' s3
    let (_, s5) ← splitAtSub [')'] s4
    let _ ← expectChar ':' s5
    pure nm
  match withParens with
  | some r => some r
  | none => do
    let _ ← expectChar ':' s3
    pure nm

/-- Matcher for `\s+(.+)`: greedy whitespace run, backing off one character
when nothing would remain for the mandatory `(.+)` capture. -/
def wsThenRest (s : List Char) : Option (List Char) :=
  match s with
  | [] => none
  | c :: cs =>
    if isPySpace c then
      let r := (c :: cs).dropWhile isPySpace
      if r.isEmpty then
        if cs.isEmpty then none else some ((c :: cs).drop cs.length)
      else some r
    else none

/-- Matcher for `re.match(r'(?:from\s+(\S+)\s+)?import\s+(.+)', stripped)`:
returns (optional `from` module = group 1, names text = group 2).  The
optional group is tried first, as the regex engine does. -/
def matchPyImport (s : List Char) : Option (Option (List Char) × List Char) :=
  let fromBranch : Option (Option (List Char) × List Char) := do
    let s1 ← expectStr "from".toList s
    let s2 ← chompWs1 s1
    let (md, s3) ← nonWsRun1 s2
    let s4 ← chompWs1 s3
    let s5 ← expectStr "import".toList s4
    let rest ← wsThenRest s5
    pure (some md, rest)
  match fromBranch with
  | some r => some r
  | none => do
    let s1 ← expectStr "import".toList s
    let rest ← wsThenRest s1
    pure (none, rest)

/-- Python `group(2).split(',')[0]`. -/
def firstCommaPart (l : List Char) : List Char := l.takeWhile (fun c => c ≠ ',')

/-- Module string recorded for a python import match (analyzer.py:137-140). -/
def pyModuleOf : Option (List Char) × List Char → List Char
  | (some md, rest) => md ++ '.' :: stripChars (firstCommaPart rest)
  | (none, rest) => stripChars (firstCommaPart rest)

def python_structure_lines (lines : List (List Char)) : StructureSummary :=
  { functions := (enumerateFrom 0 lines).filterMap (fun p =>
      (matchPyDef (stripChars p.2)).map (fun m =>
        { name := String.mk m.1, parameters := String.mk m.2,
          line_number := p.1 + 1, docstring := "", type := "function" }))
    classes := (enumerateFrom 0 lines).filterMap (fun p =>
      (matchPyClass (stripChars p.2)).map (fun nm =>
        { name := String.mk nm, line_number := p.1 + 1, methods := [],
          docstring := "" }))
    imports := (enumerateFrom 0 lines).filterMap (fun p =>
      (matchPyImport (stripChars p.2)).map (fun m =>
        { module := String.mk (pyModuleOf m), line_number := p.1 + 1,
          import_alias := "" })) }

def extract_python_structure (code : String) : StructureSummary :=
  python_structure_lines (splitNl code.toList)

/-! JavaScript / TypeScript structure extraction (`_extract_js_structure`,
analyzer.py:150-206). -/

/-- Anchored matcher for `function\s+(\w+)\s*\((.*?)\)`. -/
def matchJsFuncA (s : List Char) : Option (List Char × List Char) := do
  let s1 ← expectStr "function".toList s
  let s2 ← chompWs1 s1
  let (nm, s3) ← wordRun1 s2
  let s4 := chompWs s3
  let s5 ← expectChar '(' s4
  let (ps, _) ← splitAtSub [')'] s5
  pure (nm, ps)

/-- Ordered alternation `(?:const|let|var)`. -/
def constLetVar (s : List Char) : Option (List Char) :=
  match expectStr "const".toList s with
  | some r => some r
  | none =>
    match expectStr "let".toList s with
    | some r => some r
    | none => expectStr "var".toList s

/-- Lazy `(.*?)\)\s*=>`: scan the closing parens left to right and stop at
the first one followed by `\s*=>`; earlier unsuccessful closers stay inside
the lazily grown capture. -/
def scanCloseArrow (pre : List Char) : List Char → Option (List Char)
  | [] => none
  | c :: cs =>
    if c = ')' && isPrefixOfChars "=>".toList (chompWs cs) then some pre.reverse
    else scanCloseArrow (c :: pre) cs

/-- Anchored matcher for `(?:const|let|var)\s+(\w+)\s*=\s*\((.*?)\)\s*=>`. -/
def matchJsFuncB (s : List Char) : Option (List Char × List Char) := do
  let s1 ← constLetVar s
  let s2 ← chompWs1 s1
  let (nm, s3) ← wordRun1 s2
  let s4 := chompWs s3
  let s5 ← expectChar '=' s4
  let s6 := chompWs s5
  let s7 ← expectChar '(' s6
  let ps ← scanCloseArrow [] s7
  pure (nm, ps)

/-- Anchored matcher for `(?:const|let|var)\s+(\w+)\s*=\s*function\s*\((.*?)\)`. -/
def matchJsFuncC (s : List Char) : Option (List Char × List Char) := do
  let s1 ← constLetVar s
  let s2 ← chompWs1 s1
  let (nm, s3) ← wordRun1 s2
  let s4 := chompWs s3
  let s5 ← expectChar '=' s4
  let s6 := chompWs s5
  let s7 ← expectStr "function".toList s6
  let s8 := chompWs s7
  let s9 ← expectChar '(' s8
  let (ps, _) ← splitAtSub [')'] s9
  pure (nm, ps)

/-- Anchored matcher for `(\w+)\s*:\s*\((.*?)\)\s*=>`. -/
def matchJsFuncD (s : List Char) : Option (List Char × List Char) := do
  let (nm, s1) ← wordRun1 s
  let s2 := chompWs s1
  let s3 ← expectChar ':' s2
  let s4 := chompWs s3
  let s5 ← expectChar '(' s4
  let ps ← scanCloseArrow [] s5
  pure (nm, ps)

/-- The ordered loop over the four js function patterns, `re.search` each,
first match wins (analyzer.py:161-178). -/
def jsFunctionMatch (stripped : List Char) : Option (List Char × List Char) :=
  match reSearch matchJsFuncA stripped with
  | some r => some r
  | none =>
    match reSearch matchJsFuncB stripped with
    | some r => some r
    | none =>
      match reSearch matchJsFuncC stripped with
      | some r => some r
      | none => reSearch matchJsFuncD stripped

/-- Matcher for `re.match(r'class\s+(\w+)', stripped)`. -/
def matchJsClass (s : List Char) : Option (List Char) := do
  let s1 ← expectStr "class".toList s
  let s2 ← chompWs1 s1
  let (nm, _) ← wordRun1 s2
  pure nm

def isQuote (c : Char) : Bool := c = '\'' || c = '"'

/-- `['"]([^'"]+)['"]`: a quote of either kind, a nonempty quote-free run
(the capture), a closing quote of either kind. -/
def quotedPath (s : List Char) : Option (List Char) :=
  match s with
  | [] => none
  | q :: rest =>
    if isQuote q then
      let p := rest.takeWhile (fun c => !(isQuote c))
      if p.isEmpty then none
      else
        match rest.dropWhile (fun c => !(isQuote c)) with
        | [] => none
        | _ :: _ => some p
    else none

/-- Tail `\s+from\s+['"]([^'"]+)['"]` of the first js import pattern. -/
def jsFromTail (s : List Char) : Option (List Char) := do
  let s1 ← chompWs1 s
  let s2 ← expectStr "from".toList s1
  let s3 ← chompWs1 s2
  quotedPath s3

/-- After the literal `import` of `import\s+.*?\s+from\s+['"]([^'"]+)['"]`:
the first `\s+` is greedy (longest run first), the `.*?` lazy (shortest
first); the remaining tail is deterministic. -/
def jsImportFromAfter (rest : List Char) : Option (List Char) :=
  let m := (rest.takeWhile isPySpace).length
  (List.range m).findSome? (fun k =>
    let w1 := m - k
    (List.range (rest.length + 1 - w1)).findSome? (fun l =>
      jsFromTail (rest.drop (w1 + l))))

/-- Anchored matcher for `import\s+.*?\s+from\s+['"]([^'"]+)['"]`. -/
def matchJsImportFrom (s : List Char) : Option (List Char) := do
  let s1 ← expectStr "import".toList s
  jsImportFromAfter s1

/-- Anchored matcher for `import\s+['"]([^'"]+)['"]`. -/
def matchJsImportPlain (s : List Char) : Option (List Char) := do
  let s1 ← expectStr "import".toList s
  let s2 ← chompWs1 s1
  quotedPath s2

/-- The ordered loop over the two js import patterns (analyzer.py:191-204). -/
def jsImportMatch (stripped : List Char) : Option (List Char) :=
  match reSearch matchJsImportFrom stripped with
  | some r => some r
  | none => reSearch matchJsImportPlain stripped

def js_structure_lines (lines : List (List Char)) : StructureSummary :=
  { functions := (enumerateFrom 0 lines).filterMap (fun p =>
      (jsFunctionMatch (stripChars p.2)).map (fun m =>
        { name := String.mk m.1, parameters := String.mk m.2,
          line_number := p.1 + 1, docstring := "", type := "function" }))
    classes := (enumerateFrom 0 lines).filterMap (fun p =>
      (matchJsClass (stripChars p.2)).map (fun nm =>
        { name := String.mk nm, line_number := p.1 + 1, methods := [],
          docstring := "" }))
    imports := (enumerateFrom 0 lines).filterMap (fun p =>
      (jsImportMatch (stripChars p.2)).map (fun md =>
        { module := String.mk md, line_number := p.1 + 1,
          import_alias := "" })) }

def extract_js_structure (code : String) : StructureSummary :=
  js_structure_lines (splitNl code.toList)

/-! Java structure extraction (`_extract_java_structure`,
analyzer.py:208-248). -/

/-- The eight (visibility, static) alternatives of
`(?:public|private|protected)?\s*(?:static)?\s*...` in engine order. -/
def javaCombos : List (List Char × List Char) :=
  [("public".toList, "static".toList), ("public".toList, []),
   ("private".toList, "static".toList), ("private".toList, []),
   ("protected".toList, "static".toList), ("protected".toList, []),
   ([], "static".toList), ([], [])]

/-- One alternative of the java method pattern
`(?:public|private|protected)?\s*(?:static)?\s*\w+\s+(\w+)\s*\((.*?)\)`. -/
def javaMethodCore (vis st s : List Char) : Option (List Char × List Char) := do
  let s1 ← expectStr vis s
  let s2 := chompWs s1
  let s3 ← expectStr st s2
  let s4 := chompWs s3
  let (_, s5) ← wordRun1 s4
  let s6 ← chompWs1 s5
  let (nm, s7) ← wordRun1 s6
  let s8 := chompWs s7
  let s9 ← expectChar '(' s8
  let (ps, _) ← splitAtSub [')'] s9
  pure (nm, ps)

/-- Anchored matcher for the java method pattern. -/
def matchJavaMethod (s : List Char) : Option (List Char × List Char) :=
  javaCombos.findSome? (fun p => javaMethodCore p.1 p.2 s)

/-- One visibility alternative of the java class pattern
`(?:public|private)?\s*class\s+(\w+)`. -/
def javaClassCore (vis s : List Char) : Option (List Char) := do
  let s1 ← expectStr vis s
  let s2 := chompWs s1
  let s3 ← expectStr "class".toList s2
  let s4 ← chompWs1 s3
  let (nm, _) ← wordRun1 s4
  pure nm

/-- Matcher for `re.match(r'(?:public|private)?\s*class\s+(\w+)',
stripped)`; the visibility alternatives are tried in engine order:
`public`, `private`, then the empty alternative. -/
def matchJavaClass (s : List Char) : Option (List Char) :=
  match javaClassCore "public".toList s with
  | some r => some r
  | none =>
    match javaClassCore "private".toList s with
    | some r => some r
    | none => javaClassCore [] s

/-- Matcher for `re.match(r'import\s+([^;]+);', stripped)`.  The greedy
`\s+` backtracks: with the maximal whitespace run consumed, `([^;]+)`
captures the text up to the first `';'` when that text is nonempty; when a
`';'` follows the run directly and the run has at least two characters,
`\s+` gives one character back and `([^;]+)` captures that single
whitespace character (so on `import  ;` the module is one space).  With no
`';'` after the run there is no match: the given-back characters are
whitespace, never `';'`, so shrinking `\s+` further cannot supply the
required terminator. -/
def matchJavaImport (s : List Char) : Option (List Char) :=
  match expectStr "import".toList s with
  | none => none
  | some s1 =>
    match s1 with
    | [] => none
    | c :: _ =>
      if isPySpace c then
        let w := s1.takeWhile isPySpace
        let s2 := s1.dropWhile isPySpace
        match splitAtSub [';'] s2 with
        | none => none
        | some (md, _) =>
          if md.isEmpty then
            if 2 ≤ w.length then some (w.drop (w.length - 1)) else none
          else some md
      else none

def java_structure_lines (lines : List (List Char)) : StructureSummary :=
  { functions := (enumerateFrom 0 lines).filterMap (fun p =>
      let stripped := stripChars p.2
      if containsSeq "class".toList stripped ||
          containsSeq "interface".toList stripped then none
      else (reSearch matchJavaMethod stripped).map (fun m =>
        { name := String.mk m.1, parameters := String.mk m.2,
          line_number := p.1 + 1, docstring := "", type := "method" }))
    classes := (enumerateFrom 0 lines).filterMap (fun p =>
      (matchJavaClass (stripChars p.2)).map (fun nm =>
        { name := String.mk nm, line_number := p.1 + 1, methods := [],
          docstring := "" }))
    imports := (enumerateFrom 0 lines).filterMap (fun p =>
      (matchJavaImport (stripChars p.2)).map (fun md =>
        { module := String.mk md, line_number := p.1 + 1,
          import_alias := "" })) }

def extract_java_structure (code : String) : StructureSummary :=
  java_structure_lines (splitNl code.toList)

/-! Go structure extraction (`_extract_go_structure`, analyzer.py:250-292). -/

/-- Tail `(\w+)\s*\((.*?)\)` of the go function pattern. -/
def goFuncTail (s : List Char) : Option (List Char × List Char) := do
  let (nm, s1) ← wordRun1 s
  let s2 := chompWs s1
  let s3 ← expectChar '(' s2
  let (ps, _) ← splitAtSub [')'] s3
  pure (nm, ps)

/-- Matcher for `re.match(r'func\s+(?:\([^)]*\)\s*)?(\w+)\s*\((.*?)\)',
stripped)`; the optional receiver group is tried first. -/
def matchGoFunc (s : List Char) : Option (List Char × List Char) := do
  let s1 ← expectStr "func".toList s
  let s2 ← chompWs1 s1
  let withRecv : Option (List Char × List Char) := do
    let r1 ← expectChar '(' s2
    let (_, r2) ← splitAtSub [')'] r1
    goFuncTail (chompWs r2)
  match withRecv with
  | some r => some r
  | none => goFuncTail s2

/-- Matcher for `re.match(r'type\s+(\w+)\s+struct', stripped)`. -/
def matchGoType (s : List Char) : Option (List Char) := do
  let s1 ← expectStr "type".toList s
  let s2 ← chompWs1 s1
  let (nm, s3) ← wordRun1 s2
  let s4 ← chompWs1 s3
  let _ ← expectStr "struct".toList s4
  pure nm

/-- `"([^"]+)"`: double quote, nonempty double-quote-free capture, double
quote. -/
def quotedPathDq (s : List Char) : Option (List Char) :=
  match s with
  | [] => none
  | q :: rest =>
    if q = '"' then
      let p := rest.takeWhile (fun c => c ≠ '"')
      if p.isEmpty then none
      else
        match rest.dropWhile (fun c => c ≠ '"') with
        | [] => none
        | _ :: _ => some p
    else none

/-- Matcher for `re.match(r'import\s+(?:"([^"]+)"|(\w+)\s+"([^"]+)")',
stripped)`; returns (module, alias), alias empty for the first branch
(analyzer.py:282-285).  Written as an explicit cascade: literal `import`,
`\s+`, then the quoted branch first, else the alias branch. -/
def matchGoImport (s : List Char) : Option (List Char × List Char) :=
  match expectStr "import".toList s with
  | none => none
  | some s1 =>
    match chompWs1 s1 with
    | none => none
    | some s2 =>
      match quotedPathDq s2 with
      | some p => some (p, [])
      | none =>
        match wordRun1 s2 with
        | none => none
        | some (al, s3) =>
          match chompWs1 s3 with
          | none => none
          | some s4 =>
            match quotedPathDq s4 with
            | none => none
            | some p => some (p, al)

def go_structure_lines (lines : List (List Char)) : StructureSummary :=
  { functions := (enumerateFrom 0 lines).filterMap (fun p =>
      (matchGoFunc (stripChars p.2)).map (fun m =>
        { name := String.mk m.1, parameters := String.mk m.2,
          line_number := p.1 + 1, docstring := "", type := "function" }))
    classes := (enumerateFrom 0 lines).filterMap (fun p =>
      (matchGoType (stripChars p.2)).map (fun nm =>
        { name := String.mk nm, line_number := p.1 + 1, methods := [],
          docstring := "" }))
    imports := (enumerateFrom 0 lines).filterMap (fun p =>
      (matchGoImport (stripChars p.2)).map (fun m =>
        { module := String.mk m.1, line_number := p.1 + 1,
          import_alias := String.mk m.2 })) }

def extract_go_structure (code : String) : StructureSummary :=
  go_structure_lines (splitNl code.toList)

/-- `CodeAnalyzer._extract_structure` (analyzer.py:90-101). -/
def extract_structure (code : String) (language : String) : StructureSummary :=
  if language = "python" then extract_python_structure code
  else if language = "javascript" ∨ language = "typescript" then
    extract_js_structure code
  else if language = "java" then extract_java_structure code
  else if language = "go" then extract_go_structure code
  else { functions := [], classes := [], imports := [] }

/-! The aggregator (`CodeAnalyzer.analyze_code`, analyzer.py:24-62). -/

/-- The `try` block of `analyze_code`: detection, stats, structure, count
fold-in, complexity, success record. -/
def analyze_code (filename : String) (code_content : String) : AnalysisResult :=
  let language := detect_language filename
  let stats0 := get_basic_stats code_content language
  let summary := extract_structure code_content language
  let stats := { stats0 with
    functions_count := summary.functions.length
    classes_count := summary.classes.length }
  let complexity := calculate_complexity code_content language
  { filename := filename, language := language, stats := stats,
    structure_summary := summary, complexity := complexity,
    success := true, error_message := "" }

/-- The `except` branch of `analyze_code` (analyzer.py:52-62): the canonical
failure record, with `error_message` equal to `str(e)` for the caught
exception `e`. -/
def failure_result (filename : String) (msg : String) : AnalysisResult :=
  { filename := filename, language := "unknown", stats := empty_stats,
    structure_summary := { functions := [], classes := [], imports := [] },
    complexity := { cyclomatic_complexity := 0, nesting_depth := 0,
                    maintainability_index := 0 },
    success := false, error_message := msg }

/-- `analyze_code` with fault injection: the `try` block of analyzer.py:26-51
either completes (`none`) or some sub-step raises; a raised Python exception
is modelled by its message string `str(e)`, which is all the `except` branch
uses of it. -/
def analyze_code_faulty (filename code_content : String) :
    Option String → AnalysisResult
  | none => analyze_code filename code_content
  | some e => failure_result filename e

/-! General lemmas about the scanners. -/

theorem le_foldl_step {α : Type _} (step : Nat → α → Nat)
    (h : ∀ b a, b ≤ step b a) :
    ∀ (l : List α) (init : Nat), init ≤ l.foldl step init := by
  intro l
  induction l with
  | nil => intro init; exact Nat.le_refl _
  | cons a as ih => intro init; exact Nat.le_trans (h init a) (ih (step init a))

theorem one_le_cyclomaticRaw (lines keywords : List (List Char)) :
    1 ≤ cyclomaticRaw lines keywords := by
  unfold cyclomaticRaw
  apply le_foldl_step
  intro b l
  apply le_foldl_step
  intro b' kw
  by_cases h : keywordHit l kw <;> simp [h]

theorem snd_le_foldl_braceStep (lines : List (List Char)) :
    ∀ s : Int × Int, s.2 ≤ (lines.foldl braceStep s).2 := by
  induction lines with
  | nil => intro s; exact le_refl _
  | cons l ls ih =>
    intro s
    exact le_trans (le_max_left s.2 _) (ih (braceStep s l))

theorem nesting_depth_nonneg (code language : String) :
    0 ≤ calculate_nesting_depth code language := by
  unfold calculate_nesting_depth
  split
  · exact Int.ofNat_nonneg _
  · exact snd_le_foldl_braceStep _ ((0 : Int), (0 : Int))

/-- C2: for every content string and every language value the reported
cyclomatic complexity v satisfies 1 ≤ v ≤ 50 — the count starts at the
baseline 1 and the reported value is the raw count capped at 50. -/
theorem cyclomatic_complexity_bounds (content language : String) :
    1 ≤ (calculate_complexity content language).cyclomatic_complexity ∧
    (calculate_complexity content language).cyclomatic_complexity ≤ 50 := by
  constructor
  · show 1 ≤ min (cyclomaticRaw (splitNl content.toList)
      (complexity_keywords language)) 50
    exact le_min (one_le_cyclomaticRaw _ _) (by norm_num)
  · exact min_le_right _ _

/-- C3: the reported maintainability index equals
`max 0 (100 - reported_cyclomatic * 2 - nesting_depth * 5)` with the
reported (capped) cyclomatic value, and is nonnegative.  (The source uses
the uncapped count in the formula; at or beyond the cap both penalties push
the index to the 0 floor, so the two formulas agree.) -/
theorem maintainability_index_formula (content language : String) :
    (calculate_complexity content language).maintainability_index =
      max 0 (100 -
        ((calculate_complexity content language).cyclomatic_complexity : Int) * 2 -
        (calculate_complexity content language).nesting_depth * 5) ∧
    0 ≤ (calculate_complexity content language).maintainability_index := by
  have hd : 0 ≤ calculate_nesting_depth content language :=
    nesting_depth_nonneg content language
  constructor
  · show max 0 (100 - (cyclomaticRaw (splitNl content.toList)
        (complexity_keywords language) : Int) * 2 -
        calculate_nesting_depth content language * 5) =
      max 0 (100 - ((min (cyclomaticRaw (splitNl content.toList)
        (complexity_keywords language)) 50 : Nat) : Int) * 2 -
        calculate_nesting_depth content language * 5)
    rcases le_or_lt (cyclomaticRaw (splitNl content.toList)
        (complexity_keywords language)) 50 with h | h
    · rw [min_eq_left h]
    · rw [min_eq_right h.le]
      have h1 : 100 - (cyclomaticRaw (splitNl content.toList)
          (complexity_keywords language) : Int) * 2 -
          calculate_nesting_depth content language * 5 ≤ 0 := by
        have : (51 : Int) ≤ (cyclomaticRaw (splitNl content.toList)
            (complexity_keywords language) : Int) := by exact_mod_cast h
        nlinarith
      have h2 : 100 - ((50 : Nat) : Int) * 2 -
          calculate_nesting_depth content language * 5 ≤ 0 := by
        push_cast
        linarith
      rw [max_eq_left h1, max_eq_left h2]
  · exact le_max_left _ _

/-- C6: on every successful analysis the folded counters agree with the
lengths of the extracted declaration lists (analyzer.py:36-37). -/
theorem structure_counts_consistent (filename content : String)
    (h : (analyze_code filename content).success = true) :
    (analyze_code filename content).stats.functions_count =
      (analyze_code filename content).structure_summary.functions.length ∧
    (analyze_code filename content).stats.classes_count =
      (analyze_code filename content).structure_summary.classes.length :=
  ⟨rfl, rfl⟩

/-- Witness for C6 at a concrete successful input. -/
theorem structure_counts_consistent_witness :
    (analyze_code "sample.py" "def foo(a, b):\n    return a\n").success = true ∧
    (analyze_code "sample.py" "def foo(a, b):\n    return a\n").stats.functions_count =
      (analyze_code "sample.py" "def foo(a, b):\n    return a\n").structure_summary.functions.length ∧
    (analyze_code "sample.py" "def foo(a, b):\n    return a\n").stats.classes_count =
      (analyze_code "sample.py" "def foo(a, b):\n    return a\n").structure_summary.classes.length :=
  ⟨rfl, structure_counts_consistent "sample.py" "def foo(a, b):\n    return a\n" rfl⟩

/-- C7: `analyze_code` is deterministic — identical `(filename, content)`
inputs yield identical `AnalysisResult` values.  In the embedding
`analyze_code` is a pure function of its two arguments, reflecting that the
source reads no state outside them. -/
theorem analyze_code_deterministic (f1 c1 f2 c2 : String)
    (hf : f1 = f2) (hc : c1 = c2) :
    analyze_code f1 c1 = analyze_code f2 c2 := by rw [hf, hc]

/-- Witness for C7 at a concrete input. -/
theorem analyze_code_deterministic_witness :
    analyze_code "a.py" "x = 1" = analyze_code "a.py" "x = 1" :=
  analyze_code_deterministic "a.py" "x = 1" "a.py" "x = 1" rfl rfl

/-- C1 (amended): on any injected sub-step fault with message `e`,
`analyze_code` returns the canonical failure record: `success = false`,
`language = "unknown"`, all-zero line statistics, the three structure
sequences empty, complexity `(0, 0, 0.0)`, and `error_message` equal to the
fault's own description `e`. -/
theorem analyze_fault_canonical_failure (filename content e : String) :
    analyze_code_faulty filename content (some e) =
      { filename := filename, language := "unknown",
        stats := { total_lines := 0, non_empty_lines := 0, comment_lines := 0,
                   characters := 0, functions_count := 0, classes_count := 0 },
        structure_summary := { functions := [], classes := [], imports := [] },
        complexity := { cyclomatic_complexity := 0, nesting_depth := 0,
                        maintainability_index := 0 },
        success := false, error_message := e } := rfl

/-- C1 counterexample: a fault whose Python description `str(e)` is empty
(e.g. `Exception()`) produces the canonical failure record with an EMPTY
`error_message`, so the result is not always populated as the claim
states. -/
theorem analyze_fault_empty_error_message :
    (analyze_code_faulty "a.py" "x = 1" (some "")).success = false ∧
    (analyze_code_faulty "a.py" "x = 1" (some "")).error_message = "" :=
  ⟨rfl, rfl⟩

/-- Every lookup in the extension table lands in the table's values or the
default. -/
theorem lookup_ext_map_range (e : String) :
    (ext_map.lookup e).getD "unknown" = "python" ∨
    (ext_map.lookup e).getD "unknown" = "javascript" ∨
    (ext_map.lookup e).getD "unknown" = "typescript" ∨
    (ext_map.lookup e).getD "unknown" = "java" ∨
    (ext_map.lookup e).getD "unknown" = "go" ∨
    (ext_map.lookup e).getD "unknown" = "unknown" := by
  unfold ext_map
  simp only [List.lookup]
  repeat' split
  all_goals simp_all

/-- `detect_language` returns one of the five supported names or
`"unknown"`. -/
theorem detect_language_range (f : String) :
    detect_language f = "python" ∨ detect_language f = "javascript" ∨
    detect_language f = "typescript" ∨ detect_language f = "java" ∨
    detect_language f = "go" ∨ detect_language f = "unknown" :=
  lookup_ext_map_range _

/-- C9: analysis of the empty content succeeds for every filename, with one
(empty) physical line, zero nonempty/comment/character counts, empty
structure with zero counts, cyclomatic 1, nesting depth 0 and
maintainability index 98. -/
theorem analyze_empty_content (filename : String) :
    (analyze_code filename "").success = true ∧
    (analyze_code filename "").stats =
      { total_lines := 1, non_empty_lines := 0, comment_lines := 0,
        characters := 0, functions_count := 0, classes_count := 0 } ∧
    (analyze_code filename "").structure_summary =
      { functions := [], classes := [], imports := [] } ∧
    (analyze_code filename "").complexity =
      { cyclomatic_complexity := 1, nesting_depth := 0,
        maintainability_index := 98 } := by
  rcases detect_language_range filename with h | h | h | h | h | h <;>
    refine ⟨rfl, ?_, ?_, ?_⟩ <;>
    simp only [analyze_code, h] <;> rfl

theorem mem_enumerateFrom {α : Type _} :
    ∀ (l : List α) (n : Nat) (p : Nat × α),
      p ∈ enumerateFrom n l → n ≤ p.1 ∧ p.1 < n + l.length := by
  intro l
  induction l with
  | nil => intro n p hp; cases hp
  | cons a as ih =>
    intro n p hp
    cases hp with
    | head => simp
    | tail _ hp =>
      have := ih (n + 1) p hp
      simp only [List.length_cons]
      omega

/-- All line-number fields of a structure summary lie in `[1, n]`. -/
def LineNumbersBounded (s : StructureSummary) (n : Nat) : Prop :=
  (∀ d ∈ s.functions, 1 ≤ d.line_number ∧ d.line_number ≤ n) ∧
  (∀ d ∈ s.classes, 1 ≤ d.line_number ∧ d.line_number ≤ n) ∧
  (∀ d ∈ s.imports, 1 ≤ d.line_number ∧ d.line_number ≤ n)

/-- Any per-line scan that stamps entries with `index + 1` produces only
line numbers in `[1, length]`. -/
theorem lineScan_bound {β : Type _} (lines : List (List Char))
    (g : Nat × List Char → Option β) (num : β → Nat)
    (hg : ∀ p r, g p = some r → num r = p.1 + 1) :
    ∀ r ∈ (enumerateFrom 0 lines).filterMap g,
      1 ≤ num r ∧ num r ≤ lines.length := by
  intro r hr
  rcases List.mem_filterMap.mp hr with ⟨p, hp, hgp⟩
  have hb := mem_enumerateFrom lines 0 p hp
  have hn := hg p r hgp
  omega

theorem python_structure_lines_bounded (lines : List (List Char)) :
    LineNumbersBounded (python_structure_lines lines) lines.length := by
  refine ⟨?_, ?_, ?_⟩ <;>
    apply lineScan_bound <;>
    · intro p r h
      rcases Option.map_eq_some'.mp h with ⟨m, _, hm⟩
      subst hm
      rfl

theorem js_structure_lines_bounded (lines : List (List Char)) :
    LineNumbersBounded (js_structure_lines lines) lines.length := by
  refine ⟨?_, ?_, ?_⟩ <;>
    apply lineScan_bound <;>
    · intro p r h
      rcases Option.map_eq_some'.mp h with ⟨m, _, hm⟩
      subst hm
      rfl

theorem java_structure_lines_bounded (lines : List (List Char)) :
    LineNumbersBounded (java_structure_lines lines) lines.length := by
  refine ⟨?_, ?_, ?_⟩ <;> apply lineScan_bound
  · intro p r h
    by_cases hc : containsSeq "class".toList (stripChars p.2) ||
        containsSeq "interface".toList (stripChars p.2)
    · simp only [java_structure_lines, hc, if_true] at h
      cases h
    · simp only [java_structure_lines, hc, if_false] at h
      rcases Option.map_eq_some'.mp h with ⟨m, _, hm⟩
      subst hm
      rfl
  · intro p r h
    rcases Option.map_eq_some'.mp h with ⟨m, _, hm⟩
    subst hm
    rfl
  · intro p r h
    rcases Option.map_eq_some'.mp h with ⟨m, _, hm⟩
    subst hm
    rfl

theorem go_structure_lines_bounded (lines : List (List Char)) :
    LineNumbersBounded (go_structure_lines lines) lines.length := by
  refine ⟨?_, ?_, ?_⟩ <;>
    apply lineScan_bound <;>
    · intro p r h
      rcases Option.map_eq_some'.mp h with ⟨m, _, hm⟩
      subst hm
      rfl

theorem extract_structure_bounded (code language : String) :
    LineNumbersBounded (extract_structure code language)
      (splitNl code.toList).length := by
  unfold extract_structure
  split_ifs
  · exact python_structure_lines_bounded _
  · exact js_structure_lines_bounded _
  · exact java_structure_lines_bounded _
  · exact go_structure_lines_bounded _
  · exact ⟨by simp, by simp, by simp⟩

/-- C5: in every successful analysis, every line-number field of every
function, class/type and import declaration is 1-based and at most
`stats.total_lines` (both computed from the same newline split). -/
theorem line_numbers_in_range (filename content : String)
    (hs : (analyze_code filename content).success = true) :
    (∀ d ∈ (analyze_code filename content).structure_summary.functions,
        1 ≤ d.line_number ∧
        d.line_number ≤ (analyze_code filename content).stats.total_lines) ∧
    (∀ d ∈ (analyze_code filename content).structure_summary.classes,
        1 ≤ d.line_number ∧
        d.line_number ≤ (analyze_code filename content).stats.total_lines) ∧
    (∀ d ∈ (analyze_code filename content).structure_summary.imports,
        1 ≤ d.line_number ∧
        d.line_number ≤ (analyze_code filename content).stats.total_lines) :=
  extract_structure_bounded content (detect_language filename)

/-- Witness for C5: a concrete declaration of a concrete successful
analysis respects the bounds. -/
theorem line_numbers_in_range_witness :
    1 ≤ ({ name := "f", parameters := "x", line_number := 1, docstring := "",
           type := "function" } : FunctionDecl).line_number ∧
    ({ name := "f", parameters := "x", line_number := 1, docstring := "",
       type := "function" } : FunctionDecl).line_number ≤
      (analyze_code "a.py" "def f(x):\n    pass\n").stats.total_lines :=
  (line_numbers_in_range "a.py" "def f(x):\n    pass\n" rfl).1
    { name := "f", parameters := "x", line_number := 1, docstring := "",
      type := "function" } (List.Mem.head _)

/-! Helper lemmas about character classes and runs. -/

theorem word_not_space {c : Char} (h : isWordChar c = true) : isPySpace c = false := by
  cases hs : isPySpace c
  · rfl
  · exfalso
    have hc : ((((c = ' ' ∨ c = '\t') ∨ c = '\n') ∨ c = '\x0d') ∨ c = '\x0b') ∨
        c = '\x0c' := by
      simpa [isPySpace] using hs
    rcases hc with ((((rfl | rfl) | rfl) | rfl) | rfl) | rfl <;>
      exact absurd h (by decide)

theorem takeWhile_of_all {α : Type _} (p : α → Bool) :
    ∀ l : List α, l.all p = true → l.takeWhile p = l := by
  intro l
  induction l with
  | nil => intro _; rfl
  | cons a t ih =>
    intro h
    rw [List.all_cons, Bool.and_eq_true] at h
    simp [List.takeWhile, h.1, ih h.2]

theorem dropWhile_of_all {α : Type _} (p : α → Bool) :
    ∀ l : List α, l.all p = true → l.dropWhile p = [] := by
  intro l
  induction l with
  | nil => intro _; rfl
  | cons a t ih =>
    intro h
    rw [List.all_cons, Bool.and_eq_true] at h
    simp [List.dropWhile, h.1, ih h.2]

theorem dropWhile_word_space (nm : List Char) (hw : nm.all isWordChar = true) :
    nm.dropWhile isPySpace = nm := by
  cases nm with
  | nil => rfl
  | cons c t =>
    have hc : isWordChar c = true := by
      rw [List.all_cons, Bool.and_eq_true] at hw
      exact hw.1
    simp [List.dropWhile, word_not_space hc]

theorem wordRun1_all (nm : List Char) (hne : nm ≠ [])
    (hw : nm.all isWordChar = true) : wordRun1 nm = some (nm, []) := by
  cases nm with
  | nil => exact absurd rfl hne
  | cons c t =>
    unfold wordRun1
    rw [takeWhile_of_all _ _ hw, dropWhile_of_all _ _ hw]
    rfl

theorem getElem_mem_enumerateFrom {α : Type _} :
    ∀ (l : List α) (n i : Nat) (a : α), l[i]? = some a →
      (n + i, a) ∈ enumerateFrom n l := by
  intro l
  induction l with
  | nil => intro n i a h; simp at h
  | cons b t ih =>
    intro n i a h
    cases i with
    | zero =>
      simp at h
      subst h
      exact List.Mem.head _
    | succ j =>
      simp at h
      have hm := ih (n + 1) j a (by simpa using h)
      have heq : n + 1 + j = n + (j + 1) := by omega
      rw [heq] at hm
      exact List.Mem.tail _ hm

theorem getElem_mem_enumerate {α : Type _} (l : List α) (i : Nat) (a : α)
    (h : l[i]? = some a) : (i, a) ∈ enumerateFrom 0 l := by
  simpa using getElem_mem_enumerateFrom l 0 i a h

/-- Evaluation of the java class matcher on a line of the amended C8 shape:
an allowed visibility prefix, `class `, then a word-character name that ends
the line. -/
theorem matchJavaClass_eval (vis nm : List Char)
    (hvis : vis = [] ∨ vis = "public ".toList ∨ vis = "private ".toList)
    (hne : nm ≠ []) (hw : nm.all isWordChar = true) :
    matchJavaClass (vis ++ 'c' :: 'l' :: 'a' :: 's' :: 's' :: ' ' :: nm) =
      some nm := by
  have hds : nm.dropWhile isPySpace = nm := dropWhile_word_space nm hw
  have hwr : wordRun1 nm = some (nm, []) := wordRun1_all nm hne hw
  rcases hvis with h | h | h <;> subst h
  · have hpub : javaClassCore "public".toList
        ([] ++ 'c' :: 'l' :: 'a' :: 's' :: 's' :: ' ' :: nm) = none := rfl
    have hpriv : javaClassCore "private".toList
        ([] ++ 'c' :: 'l' :: 'a' :: 's' :: 's' :: ' ' :: nm) = none := rfl
    have step : javaClassCore []
        ([] ++ 'c' :: 'l' :: 'a' :: 's' :: 's' :: ' ' :: nm) =
        (wordRun1 (nm.dropWhile isPySpace)).bind (fun x => some x.1) := rfl
    simp only [matchJavaClass, hpub, hpriv, step, hds, hwr, Option.bind]
  · have step : javaClassCore "public".toList
        ("public ".toList ++ 'c' :: 'l' :: 'a' :: 's' :: 's' :: ' ' :: nm) =
        (wordRun1 (nm.dropWhile isPySpace)).bind (fun x => some x.1) := rfl
    simp only [matchJavaClass, step, hds, hwr, Option.bind]
  · have hpub : javaClassCore "public".toList
        ("private ".toList ++ 'c' :: 'l' :: 'a' :: 's' :: 's' :: ' ' :: nm) =
        none := rfl
    have step : javaClassCore "private".toList
        ("private ".toList ++ 'c' :: 'l' :: 'a' :: 's' :: 's' :: ' ' :: nm) =
        (wordRun1 (nm.dropWhile isPySpace)).bind (fun x => some x.1) := rfl
    simp only [matchJavaClass, hpub, step, hds, hwr, Option.bind]

/-- C8 (amended): for every Java source line whose trimmed form is an
optional `public` or `private` visibility modifier followed by
`class <name>` (name = word characters), the extractor records a
TypeDeclaration with that name and that line's 1-based number.  (The
source's pattern admits only `public` and `private`; `protected` is not
matched.) -/
theorem java_class_rule_amended (lines : List (List Char)) (i : Nat)
    (line vis nm : List Char)
    (hline : lines[i]? = some line)
    (hvis : vis = [] ∨ vis = "public ".toList ∨ vis = "private ".toList)
    (hstrip : stripChars line = vis ++ 'c' :: 'l' :: 'a' :: 's' :: 's' :: ' ' :: nm)
    (hne : nm ≠ []) (hw : nm.all isWordChar = true) :
    ({ name := String.mk nm, line_number := i + 1, methods := [],
       docstring := "" } : ClassDecl) ∈ (java_structure_lines lines).classes := by
  apply List.mem_filterMap.mpr
  refine ⟨(i, line), getElem_mem_enumerate lines i line hline, ?_⟩
  show (matchJavaClass (stripChars line)).map _ = _
  rw [hstrip, matchJavaClass_eval vis nm hvis hne hw]
  rfl

/-- Witness for C8 (amended) on the concrete line `public class Foo`. -/
theorem java_class_rule_amended_witness :
    ({ name := String.mk "Foo".toList, line_number := 1, methods := [],
       docstring := "" } : ClassDecl) ∈
      (java_structure_lines ["public class Foo".toList]).classes :=
  java_class_rule_amended ["public class Foo".toList] 0
    "public class Foo".toList "public ".toList "Foo".toList rfl
    (Or.inr (Or.inl rfl)) (by decide) (by decide) (by decide)

/-- C8 counterexample: the line `protected class Foo` has the claimed shape
(visibility modifier `protected`, then `class Foo`), yet the extractor
records no TypeDeclaration at all — the source pattern
`(?:public|private)?\s*class\s+(\w+)` has no `protected` alternative. -/
theorem java_protected_class_not_recorded :
    (extract_java_structure "protected class Foo").classes = [] := rfl

/-! Inversion lemmas: a successful matcher step decomposes its subject. -/

theorem isPrefixOfChars_append_drop :
    ∀ pat s : List Char, isPrefixOfChars pat s = true → s = pat ++ s.drop pat.length := by
  intro pat
  induction pat with
  | nil => intro s _; rfl
  | cons a as ih =>
    intro s h
    cases s with
    | nil => exact absurd h (by simp [isPrefixOfChars])
    | cons b bs =>
      have h' := h
      simp only [isPrefixOfChars, Bool.and_eq_true, decide_eq_true_eq] at h'
      have hb := ih bs h'.2
      simp only [List.length_cons, List.drop_succ_cons, List.cons_append]
      rw [h'.1, ← hb]

theorem expectStr_eq {pat s t : List Char} (h : expectStr pat s = some t) :
    s = pat ++ t := by
  cases hp : isPrefixOfChars pat s with
  | false => simp [expectStr, hp] at h
  | true =>
    have ht : s.drop pat.length = t := by simpa [expectStr, hp] using h
    rw [← ht]
    exact isPrefixOfChars_append_drop pat s hp

theorem takeWhile_sat {α : Type _} (p : α → Bool) :
    ∀ l : List α, (l.takeWhile p).all p = true := by
  intro l
  induction l with
  | nil => rfl
  | cons a t ih =>
    by_cases h : p a
    · simp [List.takeWhile, h, ih]
    · simp [List.takeWhile, h]

theorem dropWhile_head_false {α : Type _} (p : α → Bool) :
    ∀ (l : List α) (c : α) (t : List α), l.dropWhile p = c :: t → p c = false := by
  intro l
  induction l with
  | nil => intro c t h; cases h
  | cons a as ih =>
    intro c t h
    by_cases ha : p a
    · exact ih c t (by simpa [List.dropWhile, ha] using h)
    · have : a :: as = c :: t := by simpa [List.dropWhile, ha] using h
      cases this
      exact eq_false_of_ne_true ha

theorem chompWs1_eq {s t : List Char} (h : chompWs1 s = some t) :
    ∃ w, s = w ++ t ∧ w ≠ [] ∧ w.all isPySpace = true := by
  cases s with
  | nil => cases h
  | cons c cs =>
    cases hc : isPySpace c with
    | false => simp [chompWs1, hc] at h
    | true =>
      have ht : (c :: cs).dropWhile isPySpace = t := by
        simpa [chompWs1, hc] using h
      refine ⟨(c :: cs).takeWhile isPySpace, ?_, ?_, takeWhile_sat _ _⟩
      · rw [← ht, List.takeWhile_append_dropWhile]
      · simp [List.takeWhile, hc]

theorem wordRun1_eq {s nm t : List Char} (h : wordRun1 s = some (nm, t)) :
    s = nm ++ t ∧ nm ≠ [] ∧ nm.all isWordChar = true := by
  cases he : (s.takeWhile isWordChar).isEmpty with
  | true => simp [wordRun1, he] at h
  | false =>
    have h' : s.takeWhile isWordChar = nm ∧ s.dropWhile isWordChar = t := by
      simpa [wordRun1, he] using h
    rcases h' with ⟨h1, h2⟩
    subst h1
    subst h2
    refine ⟨(List.takeWhile_append_dropWhile isWordChar s).symm, ?_,
      takeWhile_sat _ _⟩
    intro hempty
    rw [hempty] at he
    exact absurd he (by decide)

theorem quotedPathDq_shape {s p : List Char} (h : quotedPathDq s = some p) :
    ∃ rest, s = '"' :: p ++ '"' :: rest ∧ p ≠ [] ∧
      p.all (fun c => decide (c ≠ '"')) = true := by
  cases s with
  | nil => cases h
  | cons q r =>
    by_cases hq : q = '"'
    case neg => simp [quotedPathDq, hq] at h
    subst hq
    have hunf : quotedPathDq ('"' :: r) =
        (if (r.takeWhile (fun c => decide (c ≠ '"'))).isEmpty = true then none
         else
           match r.dropWhile (fun c => decide (c ≠ '"')) with
           | [] => none
           | _ :: _ => some (r.takeWhile (fun c => decide (c ≠ '"')))) := rfl
    rw [hunf] at h
    cases htw : r.takeWhile (fun c => decide (c ≠ '"')) with
    | nil =>
      rw [htw] at h
      exact Option.noConfusion h
    | cons a ta =>
      rw [htw] at h
      cases hdrop : r.dropWhile (fun c => decide (c ≠ '"')) with
      | nil =>
        rw [hdrop] at h
        exact Option.noConfusion h
      | cons c2 t2 =>
        rw [hdrop] at h
        have hp : a :: ta = p := Option.some.inj h
        have hc2 : c2 = '"' := by
          have := dropWhile_head_false (fun c => decide (c ≠ '"')) r c2 t2 hdrop
          simpa using this
        refine ⟨t2, ?_, ?_, ?_⟩
        · show '"' :: r = '"' :: (p ++ '"' :: t2)
          rw [← hp, ← hc2, ← hdrop, ← htw,
            List.takeWhile_append_dropWhile (fun c => decide (c ≠ '"')) r]
        · rw [← hp]
          exact List.cons_ne_nil _ _
        · rw [← hp, ← htw]
          exact takeWhile_sat _ _

theorem mem_enumerateFrom_getElem {α : Type _} :
    ∀ (l : List α) (n : Nat) (p : Nat × α), p ∈ enumerateFrom n l →
      n ≤ p.1 ∧ l[p.1 - n]? = some p.2 := by
  intro l
  induction l with
  | nil => intro n p hp; cases hp
  | cons a t ih =>
    intro n p hp
    cases hp with
    | head => simp
    | tail _ hp =>
      obtain ⟨hle, hget⟩ := ih (n + 1) p hp
      refine ⟨by omega, ?_⟩
      have hidx : p.1 - n = (p.1 - (n + 1)) + 1 := by omega
      rw [hidx]
      simpa using hget

/-- A line begins with a go import form: `import`, whitespace, an optional
alias (word characters followed by whitespace), then a double-quoted
nonempty path; arbitrary text may follow the closing quote. -/
def GoImportPrefixShape (s : List Char) : Prop :=
  ∃ w1 al w2 path rest : List Char,
    s = "import".toList ++ w1 ++ al ++ w2 ++ '"' :: path ++ '"' :: rest ∧
    w1 ≠ [] ∧ w1.all isPySpace = true ∧ path ≠ [] ∧
    path.all (fun c => decide (c ≠ '"')) = true ∧
    ((al = [] ∧ w2 = []) ∨
      (al ≠ [] ∧ al.all isWordChar = true ∧ w2 ≠ [] ∧ w2.all isPySpace = true))

theorem matchGoImport_shape {s : List Char} {m : List Char × List Char}
    (h : matchGoImport s = some m) : GoImportPrefixShape s := by
  unfold matchGoImport at h
  split at h
  · exact Option.noConfusion h
  · rename_i s1 h1
    split at h
    · exact Option.noConfusion h
    · rename_i s2 h2
      have hs := expectStr_eq h1
      obtain ⟨w1, hs1, hw1ne, hw1sp⟩ := chompWs1_eq h2
      split at h
      · rename_i p h3
        obtain ⟨rest, hdecomp, hpne, hpall⟩ := quotedPathDq_shape h3
        refine ⟨w1, [], [], p, rest, ?_, hw1ne, hw1sp, hpne, hpall,
          Or.inl ⟨rfl, rfl⟩⟩
        rw [hs, hs1, hdecomp]
        simp
      · rename_i h3
        split at h
        · exact Option.noConfusion h
        · rename_i al s3 h4
          obtain ⟨hs2, halne, halw⟩ := wordRun1_eq h4
          split at h
          · exact Option.noConfusion h
          · rename_i s4 h5
            obtain ⟨w2, hs3, hw2ne, hw2sp⟩ := chompWs1_eq h5
            split at h
            · exact Option.noConfusion h
            · rename_i p h6
              obtain ⟨rest, hdecomp, hpne, hpall⟩ := quotedPathDq_shape h6
              refine ⟨w1, al, w2, p, rest, ?_, hw1ne, hw1sp, hpne, hpall,
                Or.inr ⟨halne, halw, hw2ne, hw2sp⟩⟩
              rw [hs, hs1, hs2, hs3, hdecomp]
              simp

/-- End-anchored `"([^"]+)"`: a double-quoted nonempty path that ends the
string. -/
def quotedPathEnd (s : List Char) : Bool :=
  match s with
  | [] => false
  | q :: rest =>
    q = '"' &&
      (!(rest.takeWhile (fun c => c ≠ '"')).isEmpty &&
        (rest.dropWhile (fun c => c ≠ '"') = ['"']))

/-- Decision procedure for the C10 claim's wording taken literally: the
trimmed form IS `import "<path>"` or `import <alias> "<path>"`, with nothing
after the closing quote. -/
def goImportExactShape (s : List Char) : Bool :=
  match expectStr "import".toList s with
  | none => false
  | some s1 =>
    match chompWs1 s1 with
    | none => false
    | some s2 =>
      quotedPathEnd s2 ||
        (match wordRun1 s2 with
         | none => false
         | some (_, s3) =>
           match chompWs1 s3 with
           | none => false
           | some s4 => quotedPathEnd s4)

/-- C10 counterexample: the line `import "fmt" extra` is recorded as an
ImportDeclaration with module `fmt`, although its trimmed form is not of
either exact single-line shape named by the claim (text follows the closing
quote) — the source pattern is an unanchored prefix match. -/
theorem go_import_trailing_text_counterexample :
    (extract_go_structure "import \"fmt\" extra").imports =
      [{ module := "fmt", line_number := 1, import_alias := "" }] ∧
    goImportExactShape (stripChars "import \"fmt\" extra".toList) = false :=
  ⟨rfl, rfl⟩

/-- C10 (amended): an ImportDeclaration is recorded only for lines whose
trimmed form BEGINS with `import "<path>"` or `import <alias> "<path>"`
(text after the closing quote is allowed); in particular a grouped import
block (`import (` followed by quoted paths) records nothing, as its lines
begin with neither form. -/
theorem go_import_shape_sound :
    (∀ (lines : List (List Char)) (d : ImportDecl),
        d ∈ (go_structure_lines lines).imports →
        ∃ i line, lines[i]? = some line ∧ d.line_number = i + 1 ∧
          GoImportPrefixShape (stripChars line)) ∧
    (extract_go_structure "import (\n\t\"fmt\"\n\t\"os\"\n)").imports = [] := by
  constructor
  · intro lines d hd
    rcases List.mem_filterMap.mp hd with ⟨p, hp, hm⟩
    rcases Option.map_eq_some'.mp hm with ⟨m, hmatch, hbuild⟩
    obtain ⟨i, line⟩ := p
    obtain ⟨-, hget⟩ := mem_enumerateFrom_getElem lines 0 (i, line) hp
    refine ⟨i, line, by simpa using hget, ?_, matchGoImport_shape hmatch⟩
    rw [← hbuild]
  · rfl

/-- Witness for C10 (amended) at a concrete recorded import. -/
theorem go_import_shape_sound_witness :
    ∃ i line, (["import \"fmt\"".toList] : List (List Char))[i]? = some line ∧
      ({ module := "fmt", line_number := 1,
         import_alias := "" } : ImportDecl).line_number = i + 1 ∧
      GoImportPrefixShape (stripChars line) :=
  go_import_shape_sound.1 ["import \"fmt\"".toList]
    { module := "fmt", line_number := 1, import_alias := "" }
    (List.Mem.head _)

/-! Claim-side definitions and the amended rule for language detection. -/

/-- The portion of `l` after the last occurrence of `sep`; all of `l` when
`sep` does not occur. -/
def afterLast (sep : Char) : List Char → List Char
  | [] => []
  | c :: cs =>
    if sep ∈ cs then afterLast sep cs
    else if c = sep then cs else c :: cs

/-- The portion of `l` before the last occurrence of `sep`; all of `l` when
`sep` does not occur. -/
def beforeLast (sep : Char) : List Char → List Char
  | [] => []
  | c :: cs =>
    if sep ∈ cs then c :: beforeLast sep cs
    else if c = sep then [] else c :: cs

/-- The C4 claim's table, keyed by the bare substring after the dot, as the
claim words it. -/
def claimExtTable : List (String × String) :=
  [("py", "python"), ("js", "javascript"), ("jsx", "javascript"),
   ("ts", "typescript"), ("tsx", "typescript"), ("java", "java"),
   ("go", "go")]

/-- The C4 claim's detection rule taken literally: lowercase the filename,
take the substring after the last `'.'` (empty when there is no dot), and
map it through the fixed table, defaulting to `"unknown"`. -/
def detect_language_claim (filename : String) : String :=
  let g := filename.toList.map Char.toLower
  let ext := if '.' ∈ g then afterLast '.' g else []
  (claimExtTable.lookup (String.mk ext)).getD "unknown"

/-- C4 counterexample: for the dotfile `.py` the source (via
`os.path.splitext`) sees no extension and returns `"unknown"`, while the
claim's substring-after-the-last-dot rule yields `py` and hence
`"python"`. -/
theorem detect_language_dotfile_counterexample :
    detect_language ".py" = "unknown" ∧
    detect_language_claim ".py" = "python" :=
  ⟨rfl, rfl⟩

/-- C4 (amended) detection rule, stated left-to-right from the amended
claim: the basename is the part of the lowercased filename after its last
`'/'`; the extension is `'.'` followed by the part of the basename after its
last `'.'`, provided the basename contains a dot preceded (within the
basename) by at least one non-dot character — dotfiles and dotless names
have no extension; the extension is looked up in the dotted table with
default `"unknown"`, and detection never fails. -/
def detect_language_amended_rule (filename : String) : String :=
  let g := filename.toList.map Char.toLower
  let b := afterLast '/' g
  let ext :=
    if '.' ∈ b ∧ (beforeLast '.' b).any (fun c => c ≠ '.') then
      '.' :: afterLast '.' b
    else []
  (ext_map.lookup (String.mk ext)).getD "unknown"

theorem all_ne_of_not_mem (sep : Char) (l : List Char) (h : sep ∉ l) :
    l.all (fun c => decide (c ≠ sep)) = true := by
  rw [List.all_eq_true]
  intro x hx
  simp only [decide_eq_true_eq]
  intro he
  exact h (he ▸ hx)

theorem all_false_of_mem (sep : Char) {l : List Char} (h : sep ∈ l) :
    l.all (fun c => decide (c ≠ sep)) = false := by
  cases ha : l.all (fun c => decide (c ≠ sep))
  · rfl
  · exfalso
    rw [List.all_eq_true] at ha
    have := ha sep h
    simp at this

theorem takeWhile_append_all {α : Type _} (p : α → Bool) :
    ∀ (A B : List α), A.all p = true →
      (A ++ B).takeWhile p = A ++ B.takeWhile p := by
  intro A
  induction A with
  | nil => intro B _; rfl
  | cons a t ih =>
    intro B h
    rw [List.all_cons, Bool.and_eq_true] at h
    simp [List.takeWhile, h.1, ih B h.2]

theorem takeWhile_append_stop {α : Type _} (p : α → Bool) :
    ∀ (A B : List α), A.all p = false →
      (A ++ B).takeWhile p = A.takeWhile p := by
  intro A
  induction A with
  | nil => intro B h; simp at h
  | cons a t ih =>
    intro B h
    cases hpa : p a with
    | false => simp [List.takeWhile, hpa]
    | true =>
      rw [List.all_cons, hpa, Bool.true_and] at h
      simp [List.takeWhile, hpa, ih B h]

theorem dropWhile_append_all {α : Type _} (p : α → Bool) :
    ∀ (A B : List α), A.all p = true →
      (A ++ B).dropWhile p = B.dropWhile p := by
  intro A
  induction A with
  | nil => intro B _; rfl
  | cons a t ih =>
    intro B h
    rw [List.all_cons, Bool.and_eq_true] at h
    simp [List.dropWhile, h.1, ih B h.2]

theorem dropWhile_append_stop {α : Type _} (p : α → Bool) :
    ∀ (A B : List α), A.all p = false →
      (A ++ B).dropWhile p = A.dropWhile p ++ B := by
  intro A
  induction A with
  | nil => intro B h; simp at h
  | cons a t ih =>
    intro B h
    cases hpa : p a with
    | false => simp [List.dropWhile, hpa]
    | true =>
      rw [List.all_cons, hpa, Bool.true_and] at h
      simp [List.dropWhile, hpa, ih B h]

theorem any_reverse {α : Type _} (p : α → Bool) :
    ∀ l : List α, l.reverse.any p = l.any p := by
  intro l
  induction l with
  | nil => rfl
  | cons a t ih =>
    rw [List.reverse_cons, List.any_append, ih]
    simp [Bool.or_comm]

theorem dropWhile_ne_nil_of_mem (sep : Char) {A : List Char} (h : sep ∈ A) :
    A.dropWhile (fun c => decide (c ≠ sep)) ≠ [] := by
  induction A with
  | nil => cases h
  | cons a t ih =>
    by_cases ha : a = sep
    · simp [List.dropWhile, ha]
    · have hm : sep ∈ t := by
        rcases List.mem_cons.mp h with h' | h'
        · exact absurd h'.symm ha
        · exact h'
      simpa [List.dropWhile, ha] using ih hm

theorem afterLast_not_mem (sep : Char) {l : List Char} (h : sep ∉ l) :
    afterLast sep l = l := by
  cases l with
  | nil => rfl
  | cons c cs =>
    have h1 : sep ∉ cs := fun hm => h (List.mem_cons_of_mem _ hm)
    have h2 : ¬(c = sep) := fun he => h (he ▸ List.mem_cons_self c cs)
    simp [afterLast, h1, h2]

theorem afterLast_mem (sep : Char) :
    ∀ l : List Char, sep ∈ l →
      afterLast sep l =
        (l.reverse.takeWhile (fun c => decide (c ≠ sep))).reverse := by
  intro l
  induction l with
  | nil => intro h; cases h
  | cons c cs ih =>
    intro h
    by_cases hm : sep ∈ cs
    · rw [show afterLast sep (c :: cs) = afterLast sep cs by
        simp [afterLast, hm]]
      rw [ih hm, List.reverse_cons,
        takeWhile_append_stop _ _ _ (all_false_of_mem sep (List.mem_reverse.mpr hm))]
    · have hc : c = sep := by
        rcases List.mem_cons.mp h with h' | h'
        · exact h'.symm
        · exact absurd h' hm
      subst hc
      rw [show afterLast c (c :: cs) = cs by simp [afterLast, hm]]
      rw [List.reverse_cons,
        takeWhile_append_all _ _ _
          (all_ne_of_not_mem c _ (fun hx => hm (List.mem_reverse.mp hx)))]
      simp [List.takeWhile]

theorem beforeLast_mem (sep : Char) :
    ∀ l : List Char, sep ∈ l →
      (beforeLast sep l).reverse =
        (l.reverse.dropWhile (fun c => decide (c ≠ sep))).drop 1 := by
  intro l
  induction l with
  | nil => intro h; cases h
  | cons c cs ih =>
    intro h
    by_cases hm : sep ∈ cs
    · rw [show beforeLast sep (c :: cs) = c :: beforeLast sep cs by
        simp [beforeLast, hm]]
      rw [List.reverse_cons, ih hm, List.reverse_cons,
        dropWhile_append_stop _ _ _ (all_false_of_mem sep (List.mem_reverse.mpr hm))]
      cases hdw : cs.reverse.dropWhile (fun c => decide (c ≠ sep)) with
      | nil => exact absurd hdw (dropWhile_ne_nil_of_mem sep (List.mem_reverse.mpr hm))
      | cons x xs => simp
    · have hc : c = sep := by
        rcases List.mem_cons.mp h with h' | h'
        · exact h'.symm
        · exact absurd h' hm
      subst hc
      rw [show beforeLast c (c :: cs) = [] by simp [beforeLast, hm]]
      rw [List.reverse_cons,
        dropWhile_append_all _ _ _
          (all_ne_of_not_mem c _ (fun hx => hm (List.mem_reverse.mp hx)))]
      simp [List.dropWhile]

theorem splitext_ext_eq_amended (p : List Char) :
    splitext_ext p =
      (if '.' ∈ afterLast '/' p ∧
          (beforeLast '.' (afterLast '/' p)).any (fun c => c ≠ '.') then
        '.' :: afterLast '.' (afterLast '/' p)
      else []) := by
  have hunf : splitext_ext p =
      (if '.' ∈ p.reverse.takeWhile (fun c => decide (c ≠ '/')) then
        (if (((p.reverse.takeWhile (fun c => decide (c ≠ '/'))).dropWhile
              (fun c => decide (c ≠ '.'))).drop 1).any
            (fun c => decide (c ≠ '.')) then
          '.' :: (p.reverse.takeWhile (fun c => decide (c ≠ '.'))).reverse
        else [])
      else []) := rfl
  have hbase : (afterLast '/' p).reverse =
      p.reverse.takeWhile (fun c => decide (c ≠ '/')) := by
    by_cases hm : '/' ∈ p
    · rw [afterLast_mem _ _ hm, List.reverse_reverse]
    · rw [afterLast_not_mem _ hm,
        takeWhile_of_all _ _
          (all_ne_of_not_mem _ _ (fun hx => hm (List.mem_reverse.mp hx)))]
  have hmem : ('.' ∈ p.reverse.takeWhile (fun c => decide (c ≠ '/'))) ↔
      '.' ∈ afterLast '/' p := by
    rw [← hbase, List.mem_reverse]
  rw [hunf]
  by_cases hb : '.' ∈ afterLast '/' p
  · rw [if_pos (hmem.mpr hb)]
    have hAL : afterLast '.' (afterLast '/' p) =
        ((p.reverse.takeWhile (fun c => decide (c ≠ '/'))).takeWhile
          (fun c => decide (c ≠ '.'))).reverse := by
      rw [afterLast_mem _ _ hb, hbase]
    have hBL : (beforeLast '.' (afterLast '/' p)).reverse =
        ((p.reverse.takeWhile (fun c => decide (c ≠ '/'))).dropWhile
          (fun c => decide (c ≠ '.'))).drop 1 := by
      rw [beforeLast_mem _ _ hb, hbase]
    have htk : p.reverse.takeWhile (fun c => decide (c ≠ '.')) =
        (p.reverse.takeWhile (fun c => decide (c ≠ '/'))).takeWhile
          (fun c => decide (c ≠ '.')) := by
      conv_lhs => rw [← List.takeWhile_append_dropWhile
        (fun c => decide (c ≠ '/')) p.reverse]
      rw [takeWhile_append_stop _ _ _ (all_false_of_mem '.' (hmem.mpr hb))]
    have hany : (((p.reverse.takeWhile (fun c => decide (c ≠ '/'))).dropWhile
          (fun c => decide (c ≠ '.'))).drop 1).any (fun c => decide (c ≠ '.')) =
        (beforeLast '.' (afterLast '/' p)).any (fun c => decide (c ≠ '.')) := by
      rw [← hBL, any_reverse]
    rw [hany]
    by_cases ha : (beforeLast '.' (afterLast '/' p)).any
        (fun c => decide (c ≠ '.')) = true
    · rw [if_pos ha, if_pos ⟨hb, ha⟩, hAL, htk]
    · rw [if_neg ha, if_neg (fun hc => ha hc.2)]
  · rw [if_neg (fun hc => hb (hmem.mp hc)), if_neg (fun hc => hb hc.1)]

/-- C4 (amended): `detect_language` implements exactly the amended rule —
lowercase, take the basename after the last `'/'`, take the extension from
its last `'.'` provided a non-dot character precedes that dot within the
basename (dotfiles and dotless names have no extension), look the dotted
extension up in the fixed table, defaulting to `"unknown"`; the function is
total and never fails. -/
theorem detect_language_amended (filename : String) :
    detect_language filename = detect_language_amended_rule filename := by
  unfold detect_language detect_language_amended_rule
  rw [splitext_ext_eq_amended]
